import Mathlib

/-!
# Verification of `docs/scripts/fd.f.py` (RBF wave-equation demo)

Shallow embedding of the script's locally defined logic — the time-derivative
evaluator `f` and the surrounding node/operator construction — over exact
rational arithmetic.  The external library calls (`menodes`, `weight_matrix`,
`simplex_outward_normals`, `scipy.sparse.linalg.spsolve`, `scipy.integrate.ode`)
are opaque in the script; their outputs appear here as parameters of the
context, and `spsolve` on a square system is modelled as the exact solution
of that system (the spec's contract: the ghost system "is solved exactly
(sparse direct solve)").

Conventions:
* `ni` = number of interior nodes, `nb` = number of boundary nodes; the
  original node count is `N = ni + nb` and after appending one ghost node per
  boundary node the full node count is `ni + nb + nb`.
* Indices `Fin.castAdd nb j` (`j : Fin (ni+nb)`) are the original nodes,
  indices `Fin.natAdd (ni+nb) k` (`k : Fin nb`) are the ghost nodes —
  mirroring `ghost = range(N, N+len(boundary))`.
* The state vector has type `Fin ((ni+nb) + (ni+nb)) → ℚ`: first half the
  displacements, second half the velocities, as produced by
  `v.reshape((2,-1))` on a flat vector of length `2*(ni+nb)`.
-/

namespace Wave

/-- Fancy-index assignment `u[idx] = vals` of numpy, as a left fold of
pointwise updates over the index list (later writes win, as in numpy). -/
def writeAt {m k : ℕ} (idx : Fin k → Fin m) (vals : Fin k → ℚ)
    (base : Fin m → ℚ) : Fin m → ℚ :=
  (List.finRange k).foldl (fun u i => Function.update u (idx i) (vals i)) base

/-- Model of `scipy.sparse.linalg.spsolve` on a square rational system:
the exact solution `A⁻¹ b`, written through the adjugate so that it is
executable.  For a nonsingular `A` this is the unique solution of
`A.mulVec x = b` (see `solveSq_sound` and `solveSq_unique`). -/
def solveSq {nb : ℕ} (A : Matrix (Fin nb) (Fin nb) ℚ) (b : Fin nb → ℚ) :
    Fin nb → ℚ :=
  (A.det)⁻¹ • A.adjugate.mulVec b

/-- The module-level data of `fd.f.py` that the evaluator `f` reads:
the interior and boundary index lists (`interior`, `boundary`), which
together enumerate every original node exactly once, the Laplacian operator
`D = weight_matrix(nodes[interior+boundary], nodes, [(2,0),(0,2)], n=30)`,
the boundary normal-derivative operator
`dD = weight_matrix(nodes[boundary], nodes, [(1,0),(0,1)], coeffs=normals.T, n=30)`,
and the boundary target `u_bnd = np.zeros(len(boundary))` (kept general here;
claims that need it zero hypothesise it). -/
structure Ctx (ni nb : ℕ) where
  int : Fin ni → Fin (ni + nb)
  bnd : Fin nb → Fin (ni + nb)
  hib : Function.Bijective (Fin.append int bnd)
  D : Matrix (Fin (ni + nb)) (Fin (ni + nb + nb)) ℚ
  dD : Matrix (Fin nb) (Fin (ni + nb + nb)) ℚ
  u_bnd : Fin nb → ℚ

variable {ni nb : ℕ}

/-- The concatenated index list `interior+boundary`: its `i`-th entry is the
original-node index of the `i`-th slot of the state vector. -/
def ibMap (ctx : Ctx ni nb) : Fin (ni + nb) → Fin (ni + nb) :=
  Fin.append ctx.int ctx.bnd

/-- Column selection `dD[:,interior+boundary]`. -/
def dDib (ctx : Ctx ni nb) : Matrix (Fin nb) (Fin (ni + nb)) ℚ :=
  Matrix.of fun r i => ctx.dD r (Fin.castAdd nb (ibMap ctx i))

/-- Column selection `dD[:,ghost]` (ghost columns are the appended block). -/
def dDg (ctx : Ctx ni nb) : Matrix (Fin nb) (Fin nb) ℚ :=
  Matrix.of fun r k => ctx.dD r (Fin.natAdd (ni + nb) k)

/-- The ghost-node solve of line 55:
`spsolve(dD[:,ghost], u_bnd - dD[:,interior+boundary].dot(v[0]))`. -/
def ghostSolve (ctx : Ctx ni nb) (v0 : Fin (ni + nb) → ℚ) : Fin nb → ℚ :=
  solveSq (dDg ctx) (ctx.u_bnd - (dDib ctx).mulVec v0)

/-- Lines 49–55: start from the uninitialised contents `junk` of
`u = np.empty(len(nodes))`, write `u[interior+boundary] = v[0]`, then write
`u[ghost] = spsolve(dD[:,ghost], u_bnd - dD[:,interior+boundary].dot(v[0]))`. -/
def buildU (ctx : Ctx ni nb) (junk : Fin (ni + nb + nb) → ℚ)
    (v0 : Fin (ni + nb) → ℚ) : Fin (ni + nb + nb) → ℚ :=
  writeAt (fun k => Fin.natAdd (ni + nb) k) (ghostSolve ctx v0)
    (writeAt (fun i => Fin.castAdd nb (ibMap ctx i)) v0 junk)

/-- First half of the state vector: `v.reshape((2,-1))[0]`, the displacements. -/
def fstHalf (v : Fin ((ni + nb) + (ni + nb)) → ℚ) : Fin (ni + nb) → ℚ :=
  fun i => v (Fin.castAdd (ni + nb) i)

/-- Second half of the state vector: `v.reshape((2,-1))[1]`, the velocities. -/
def sndHalf (v : Fin ((ni + nb) + (ni + nb)) → ℚ) : Fin (ni + nb) → ℚ :=
  fun i => v (Fin.natAdd (ni + nb) i)

/-- The time-derivative evaluator `f(t, v)` of lines 43–57.  `junk` stands for
the unspecified initial contents of `np.empty(len(nodes))`; the time argument
`t` is accepted, as in the script, and not read by the body.  Returns
`np.hstack([v[1], D.dot(u)])`. -/
def f (ctx : Ctx ni nb) (junk : Fin (ni + nb + nb) → ℚ) (t : ℚ)
    (v : Fin ((ni + nb) + (ni + nb)) → ℚ) : Fin ((ni + nb) + (ni + nb)) → ℚ :=
  Fin.append (sndHalf v) (ctx.D.mulVec (buildU ctx junk (fstHalf v)))

/-- The evaluator on flat numpy-style vectors (lists of rationals).
`v.reshape((2,-1))` followed by `u[interior+boundary] = v[0]` only succeeds
when the flat length is exactly `2*(ni+nb)`; any other length is a shape
error, modelled as `none`. -/
def fFlat (ctx : Ctx ni nb) (junk : Fin (ni + nb + nb) → ℚ) (t : ℚ)
    (v : List ℚ) : Option (List ℚ) :=
  if h : v.length = (ni + nb) + (ni + nb) then
    some (List.ofFn fun j : Fin ((ni + nb) + (ni + nb)) =>
      f ctx junk t (fun i => v.get (Fin.cast h.symm i)) j)
  else none

/-- Pointwise sum of two flat vectors (`numpy +`). -/
def vadd (a b : List ℚ) : List ℚ := List.zipWith (· + ·) a b

/-- Scalar multiple of a flat vector (`numpy *`). -/
def vsmul (c : ℚ) (a : List ℚ) : List ℚ := a.map fun x => c * x

/-- The zero vector of a given length. -/
def zeroVec (m : ℕ) : List ℚ := List.replicate m 0

/-- Weighted combination `Σᵢ wᵢ·kᵢ` of stage vectors, padded to length `m`. -/
def wcomb (m : ℕ) : List ℚ → List (List ℚ) → List ℚ
  | _, [] => zeroVec m
  | [], _ :: _ => zeroVec m
  | w :: ws, k :: ks => vadd (vsmul w k) (wcomb m ws ks)

/-- Modelled from the spec: the stage loop of one explicit Runge–Kutta step of
the external integrator (`scipy.integrate.ode` with `dopri5` is scipy code,
not part of this repository; the spec describes it as an "explicit adaptive
Runge-Kutta stepper" whose right-hand side is the script's evaluator).  Each
pending stage, given its tableau row and node `(row, c)`, evaluates
`kᵢ = f(t + cᵢ·h, v + h·Σ_{j<i} aᵢⱼ·kⱼ)` and is appended to the accumulator;
a shape failure of the evaluator propagates. -/
def rkStagesAux (ctx : Ctx ni nb) (junk : Fin (ni + nb + nb) → ℚ) (t h : ℚ)
    (v : List ℚ) : List (List ℚ × ℚ) → List (List ℚ) → Option (List (List ℚ))
  | [], acc => some acc
  | (row, c) :: rest, acc =>
    match fFlat ctx junk (t + c * h) (vadd v (vsmul h (wcomb v.length row acc))) with
    | none => none
    | some k => rkStagesAux ctx junk t h v rest (acc ++ [k])

/-- Modelled from the spec: one explicit Runge–Kutta step of the external
integrator — compute the stages, then update `v + h·Σᵢ bᵢ·kᵢ`. -/
def rkStep (ctx : Ctx ni nb) (junk : Fin (ni + nb + nb) → ℚ)
    (stages : List (List ℚ × ℚ)) (b : List ℚ) (t h : ℚ) (v : List ℚ) :
    Option (List ℚ) :=
  match rkStagesAux ctx junk t h v stages [] with
  | none => none
  | some ks => some (vadd v (vsmul h (wcomb v.length b ks)))

/-- Modelled from the spec: `integrator.integrate(t)` — a finite sequence of
internal explicit Runge–Kutta steps, each at some time with some step size,
chained from the current state. -/
def integrateSteps (ctx : Ctx ni nb) (junk : Fin (ni + nb + nb) → ℚ)
    (stages : List (List ℚ × ℚ)) (b : List ℚ) :
    List (ℚ × ℚ) → List ℚ → Option (List ℚ)
  | [], v => some v
  | (t, h) :: rest, v =>
    match rkStep ctx junk stages b t h v with
    | none => none
    | some w => integrateSteps ctx junk stages b rest w

/-- The checkpoint loop of lines 63–66: for each output time, advance the
state with the integrator and record the resulting state vector.  `plan`
gives, per checkpoint, the internal steps the adaptive integrator chose. -/
def checkpointLoop (ctx : Ctx ni nb) (junk : Fin (ni + nb + nb) → ℚ)
    (stages : List (List ℚ × ℚ)) (b : List ℚ) :
    List (List (ℚ × ℚ)) → List ℚ → Option (List (List ℚ))
  | [], _ => some []
  | steps :: rest, v =>
    match integrateSteps ctx junk stages b steps v with
    | none => none
    | some w =>
      match checkpointLoop ctx junk stages b rest w with
      | none => none
      | some ws => some (w :: ws)

/-- The initial displacement value of lines 35–37 at a node position `p`:
`1/(1 + (r/0.05)**4)` with `r² = (x-0.5)² + (y-0.5)²`.  Since only even
powers of `r` occur, this is rational in the coordinates:
`(r/0.05)⁴ = (400·r²)²`. -/
def uInitVal (p : ℚ × ℚ) : ℚ :=
  1 / (1 + (400 * ((p.1 - 1/2) ^ 2 + (p.2 - 1/2) ^ 2)) ^ 2)

/-- The initial state vector of line 41, `np.hstack([u_init, dudt_init])`:
the initial displacements at the interior+boundary node positions followed by
`np.zeros(N)`. -/
def vInit {m : ℕ} (pos : Fin m → ℚ × ℚ) : List ℚ :=
  (List.ofFn fun i => uInitVal (pos i)) ++ zeroVec m

/-- The ghost index list of line 30: `ghost = range(N, N+len(boundary))`. -/
def ghostIdx (N nb : ℕ) : List ℕ := List.range' N nb

/-- Column selection on a row-major flat matrix: `M[:, idxs]`. -/
def selectCols (rows : List (List ℚ)) (idxs : List ℕ) : List (List ℚ) :=
  rows.map fun row => idxs.map fun j => row.getD j 0

/-- Squared Euclidean distance between two node positions. -/
def sqDist (p q : ℚ × ℚ) : ℚ := (p.1 - q.1) ^ 2 + (p.2 - q.2) ^ 2

/-- Squared distance from node `i` to its nearest other node —
`neighbors(nodes,2)[1][:,1]` squared. -/
def nearestNbrSq {m : ℕ} (nodes : Fin m → ℚ × ℚ) (i : Fin m) : ℚ :=
  (((Finset.univ.erase i).image fun j => sqDist (nodes i) (nodes j)).min).getD 0

/-- Squared minimum spacing: the square of line 27's
`dx = np.min(neighbors(nodes,2)[1][:,1])`.  Kept squared so that the whole
geometry stays inside exact rational arithmetic; `dx` itself is then
characterised by `0 ≤ dx ∧ dx² = minSpacingSq nodes`. -/
def minSpacingSq {m : ℕ} (nodes : Fin m → ℚ × ℚ) : ℚ :=
  ((Finset.univ.image fun i => nearestNbrSq nodes i).min).getD 0

/-- A ghost node position: `nodes[boundary][k] + 0.5*dx*normals[k]`
(line 29, componentwise). -/
def ghostPos (bndPos nrm : ℚ × ℚ) (dx : ℚ) : ℚ × ℚ :=
  (bndPos.1 + 1/2 * dx * nrm.1, bndPos.2 + 1/2 * dx * nrm.2)

/-- Line 29: `nodes = np.vstack((nodes, nodes[boundary] + 0.5*dx*normals))` —
the original nodes followed by one ghost node per boundary node. -/
def extendNodes {n nb : ℕ} (nodes : Fin n → ℚ × ℚ) (bnd : Fin nb → Fin n)
    (normals : Fin nb → ℚ × ℚ) (dx : ℚ) : Fin (n + nb) → ℚ × ℚ :=
  Fin.append nodes fun k => ghostPos (nodes (bnd k)) (normals k) dx

/-- The module-level bindings a call to `f` can observe: the node array, the
operator/index context and the current flat state vector. -/
structure Globals (ni nb : ℕ) where
  nodes : Fin (ni + nb + nb) → ℚ × ℚ
  ctx : Ctx ni nb
  v : Fin ((ni + nb) + (ni + nb)) → ℚ

/-- A call `f(t, v)` as a transition on the module-level bindings: the body
of `f` reads `nodes` (for `len(nodes)`), the operators, the index lists and
`u_bnd`, and writes only the freshly allocated local array `u`, so the
bindings are threaded through every statement unchanged and the call returns
the derivative vector. -/
def fCall (g : Globals ni nb) (junk : Fin (ni + nb + nb) → ℚ) (t : ℚ) :
    Globals ni nb × (Fin ((ni + nb) + (ni + nb)) → ℚ) :=
  (g, f g.ctx junk t g.v)

/-- A concrete context with no interior node and one boundary node, used to
instantiate the theorems: `interior = []`, `boundary = [0]`,
`D = [[1, 1]]`, `dD = [[1, 1]]` (so `dD[:,ghost] = [[1]]` is nonsingular),
`u_bnd = [0]`. -/
def wCtx : Ctx 0 1 where
  int := Fin.elim0
  bnd := fun _ => 0
  hib := by decide
  D := !![1, 1]
  dD := !![1, 1]
  u_bnd := fun _ => 0

/-- Concrete stand-in for the `np.empty` contents in the instantiations. -/
def wJunk : Fin (0 + 1 + 1) → ℚ := fun _ => 37

/-- A concrete state vector for the instantiations. -/
def wV : Fin ((0 + 1) + (0 + 1)) → ℚ := ![1, 2]

/-- A second concrete state vector for the linearity instantiation. -/
def wV2 : Fin ((0 + 1) + (0 + 1)) → ℚ := ![5, -3]

/-- A concrete displacement field over all nodes (one boundary node, one
ghost node) satisfying `dD.mulVec u = u_bnd` for `wCtx`. -/
def wUfull : Fin (0 + 1 + 1) → ℚ := ![1, -1]

/-- Concrete node set for the geometry instantiation. -/
def wNodes : Fin 2 → ℚ × ℚ := ![(0, 0), (1, 0)]

/-- Concrete boundary index list for the geometry instantiation. -/
def wBnd : Fin 1 → Fin 2 := fun _ => 1

/-- Concrete outward normals for the geometry instantiation. -/
def wNormals : Fin 1 → ℚ × ℚ := ![(1, 0)]

/-! ## Helper lemmas -/

theorem foldl_update_of_ne {m k : ℕ} (idx : Fin k → Fin m) (vals : Fin k → ℚ)
    (l : List (Fin k)) (base : Fin m → ℚ) (j : Fin m)
    (hj : ∀ i ∈ l, idx i ≠ j) :
    (l.foldl (fun u i => Function.update u (idx i) (vals i)) base) j = base j := by
  induction l generalizing base with
  | nil => rfl
  | cons a tl ih =>
    rw [List.foldl_cons, ih _ fun i hi => hj i (List.mem_cons_of_mem _ hi)]
    exact Function.update_noteq (fun he => hj a (List.mem_cons_self a tl) he.symm) _ _

theorem foldl_update_of_mem {m k : ℕ} {idx : Fin k → Fin m}
    (hinj : Function.Injective idx) (vals : Fin k → ℚ) (l : List (Fin k))
    (hl : l.Nodup) (base : Fin m → ℚ) (i : Fin k) (hi : i ∈ l) :
    (l.foldl (fun u i => Function.update u (idx i) (vals i)) base) (idx i) = vals i := by
  induction l generalizing base with
  | nil => cases hi
  | cons a tl ih =>
    rw [List.foldl_cons]
    rcases List.mem_cons.mp hi with h | h
    · subst h
      rw [foldl_update_of_ne]
      · exact Function.update_same _ _ _
      · intro i' hi' he
        exact (List.nodup_cons.mp hl).1 (by rwa [hinj he] at hi')
    · exact ih (List.nodup_cons.mp hl).2 _ h

theorem writeAt_apply {m k : ℕ} {idx : Fin k → Fin m}
    (hinj : Function.Injective idx) (vals : Fin k → ℚ) (base : Fin m → ℚ)
    (i : Fin k) : writeAt idx vals base (idx i) = vals i :=
  foldl_update_of_mem hinj vals _ (List.nodup_finRange k) base i (List.mem_finRange i)

theorem writeAt_apply_of_ne {m k : ℕ} (idx : Fin k → Fin m) (vals : Fin k → ℚ)
    (base : Fin m → ℚ) (j : Fin m) (hj : ∀ i, idx i ≠ j) :
    writeAt idx vals base j = base j :=
  foldl_update_of_ne idx vals _ base j fun i _ => hj i

theorem castAdd_ne_natAdd {n m : ℕ} (x : Fin n) (k : Fin m) :
    (Fin.castAdd m x : Fin (n + m)) ≠ Fin.natAdd n k := by
  intro h
  have hx := congrArg Fin.val h
  have hlt := x.isLt
  simp only [Fin.coe_castAdd, Fin.coe_natAdd] at hx
  omega

theorem castAdd_inj {n m : ℕ} : Function.Injective (Fin.castAdd (n := n) m) := by
  intro a b h
  exact Fin.ext (by simpa using congrArg Fin.val h)

theorem natAdd_inj {n m : ℕ} : Function.Injective (Fin.natAdd (m := m) n) := by
  intro a b h
  have := congrArg Fin.val h
  simp only [Fin.coe_natAdd] at this
  exact Fin.ext (by omega)

theorem ibMap_bijective (ctx : Ctx ni nb) : Function.Bijective (ibMap ctx) :=
  ctx.hib

theorem buildU_apply_ib (ctx : Ctx ni nb) (junk : Fin (ni + nb + nb) → ℚ)
    (v0 : Fin (ni + nb) → ℚ) (i : Fin (ni + nb)) :
    buildU ctx junk v0 (Fin.castAdd nb (ibMap ctx i)) = v0 i := by
  unfold buildU
  rw [writeAt_apply_of_ne]
  · exact writeAt_apply (castAdd_inj.comp (ibMap_bijective ctx).1) v0 junk i
  · exact fun k => (castAdd_ne_natAdd (ibMap ctx i) k).symm

theorem buildU_apply_ghost (ctx : Ctx ni nb) (junk : Fin (ni + nb + nb) → ℚ)
    (v0 : Fin (ni + nb) → ℚ) (k : Fin nb) :
    buildU ctx junk v0 (Fin.natAdd (ni + nb) k) = ghostSolve ctx v0 k :=
  writeAt_apply natAdd_inj (ghostSolve ctx v0) _ k

theorem buildU_junk_indep (ctx : Ctx ni nb) (junk junk' : Fin (ni + nb + nb) → ℚ)
    (v0 : Fin (ni + nb) → ℚ) : buildU ctx junk v0 = buildU ctx junk' v0 := by
  funext j
  refine Fin.addCases (fun j' => ?_) (fun k => ?_) j
  · obtain ⟨i, hi⟩ := (ibMap_bijective ctx).2 j'
    rw [← hi, buildU_apply_ib, buildU_apply_ib]
  · rw [buildU_apply_ghost, buildU_apply_ghost]

theorem solveSq_sound {A : Matrix (Fin nb) (Fin nb) ℚ} (hA : A.det ≠ 0)
    (b : Fin nb → ℚ) : A.mulVec (solveSq A b) = b := by
  unfold solveSq
  rw [Matrix.mulVec_smul, Matrix.mulVec_mulVec, Matrix.mul_adjugate,
    Matrix.smul_mulVec_assoc, Matrix.one_mulVec, smul_smul,
    inv_mul_cancel₀ hA, one_smul]

theorem solveSq_unique {A : Matrix (Fin nb) (Fin nb) ℚ} (hA : A.det ≠ 0)
    {x b : Fin nb → ℚ} (hx : A.mulVec x = b) : solveSq A b = x := by
  unfold solveSq
  rw [← hx, Matrix.mulVec_mulVec, Matrix.adjugate_mul, Matrix.smul_mulVec_assoc,
    Matrix.one_mulVec, smul_smul, inv_mul_cancel₀ hA, one_smul]

theorem solveSq_add_smul (A : Matrix (Fin nb) (Fin nb) ℚ) (a b : ℚ)
    (x y : Fin nb → ℚ) :
    solveSq A (a • x + b • y) = a • solveSq A x + b • solveSq A y := by
  funext r
  simp only [solveSq, Pi.smul_apply, Pi.add_apply, Matrix.mulVec_add,
    Matrix.mulVec_smul, smul_eq_mul]
  ring

theorem solveSq_zero (A : Matrix (Fin nb) (Fin nb) ℚ) : solveSq A 0 = 0 := by
  simp [solveSq]

theorem dD_mulVec_decomp (ctx : Ctx ni nb) (u : Fin (ni + nb + nb) → ℚ) :
    ctx.dD.mulVec u =
      (dDib ctx).mulVec (fun i => u (Fin.castAdd nb (ibMap ctx i))) +
      (dDg ctx).mulVec fun k => u (Fin.natAdd (ni + nb) k) := by
  funext r
  simp only [Matrix.mulVec, Matrix.dotProduct, dDib, dDg, Matrix.of_apply,
    Pi.add_apply]
  rw [Fin.sum_univ_add (f := fun j : Fin ((ni + nb) + nb) => ctx.dD r j * u j)]
  congr 1
  exact (Fintype.sum_bijective (ibMap ctx) (ibMap_bijective ctx) _ _
    fun i => rfl).symm

theorem ghostSolve_add_smul (ctx : Ctx ni nb) (hbnd : ctx.u_bnd = 0) (a b : ℚ)
    (x y : Fin (ni + nb) → ℚ) :
    ghostSolve ctx (a • x + b • y) = a • ghostSolve ctx x + b • ghostSolve ctx y := by
  unfold ghostSolve
  rw [hbnd, show (0 : Fin nb → ℚ) - (dDib ctx).mulVec (a • x + b • y)
      = a • ((0 : Fin nb → ℚ) - (dDib ctx).mulVec x) +
        b • ((0 : Fin nb → ℚ) - (dDib ctx).mulVec y) by
    funext r
    simp only [Matrix.mulVec_add, Matrix.mulVec_smul, Pi.sub_apply, Pi.add_apply,
      Pi.smul_apply, Pi.zero_apply, smul_eq_mul]
    ring]
  exact solveSq_add_smul _ a b _ _

theorem buildU_add_smul (ctx : Ctx ni nb) (hbnd : ctx.u_bnd = 0)
    (junk : Fin (ni + nb + nb) → ℚ) (a b : ℚ) (x y : Fin (ni + nb) → ℚ) :
    buildU ctx junk (a • x + b • y) = a • buildU ctx junk x + b • buildU ctx junk y := by
  funext j
  refine Fin.addCases (fun j' => ?_) (fun k => ?_) j
  · obtain ⟨i, hi⟩ := (ibMap_bijective ctx).2 j'
    rw [← hi]
    simp only [Pi.add_apply, Pi.smul_apply, buildU_apply_ib, smul_eq_mul]
  · simp only [Pi.add_apply, Pi.smul_apply, buildU_apply_ghost,
      ghostSolve_add_smul ctx hbnd a b x y, smul_eq_mul]

theorem fFlat_eq (ctx : Ctx ni nb) (junk : Fin (ni + nb + nb) → ℚ) (t : ℚ)
    (v : List ℚ) (hv : v.length = (ni + nb) + (ni + nb)) :
    fFlat ctx junk t v = some (List.ofFn fun j : Fin ((ni + nb) + (ni + nb)) =>
      f ctx junk t (fun i => v.get (Fin.cast hv.symm i)) j) :=
  dif_pos hv

theorem fFlat_some (ctx : Ctx ni nb) (junk : Fin (ni + nb + nb) → ℚ) (t : ℚ)
    (v : List ℚ) (hv : v.length = (ni + nb) + (ni + nb)) :
    ∃ w, fFlat ctx junk t v = some w ∧ w.length = (ni + nb) + (ni + nb) :=
  ⟨_, fFlat_eq ctx junk t v hv, List.length_ofFn _⟩

theorem vadd_length (a b : List ℚ) :
    (vadd a b).length = min a.length b.length :=
  List.length_zipWith _ _ _

theorem vsmul_length (c : ℚ) (a : List ℚ) : (vsmul c a).length = a.length :=
  List.length_map _ _

theorem zeroVec_length (m : ℕ) : (zeroVec m).length = m :=
  List.length_replicate _ _

theorem wcomb_length (m : ℕ) (ws : List ℚ) (ks : List (List ℚ))
    (hks : ∀ k ∈ ks, (k : List ℚ).length = m) : (wcomb m ws ks).length = m := by
  induction ws generalizing ks with
  | nil => cases ks <;> simp [wcomb, zeroVec]
  | cons w ws ih =>
    cases ks with
    | nil => simp [wcomb, zeroVec]
    | cons k ks =>
      rw [show wcomb m (w :: ws) (k :: ks) = vadd (vsmul w k) (wcomb m ws ks)
          from rfl,
        vadd_length, vsmul_length, hks k (List.mem_cons_self k ks),
        ih ks fun x hx => hks x (List.mem_cons_of_mem _ hx), min_self]

theorem rkStagesAux_lengths (ctx : Ctx ni nb) (junk : Fin (ni + nb + nb) → ℚ)
    (t h : ℚ) (v : List ℚ) (hv : v.length = (ni + nb) + (ni + nb))
    (rows : List (List ℚ × ℚ)) :
    ∀ acc ks : List (List ℚ),
      (∀ k ∈ acc, (k : List ℚ).length = (ni + nb) + (ni + nb)) →
      rkStagesAux ctx junk t h v rows acc = some ks →
      ∀ k ∈ ks, (k : List ℚ).length = (ni + nb) + (ni + nb) := by
  induction rows with
  | nil =>
    intro acc ks hacc heq
    obtain rfl : acc = ks := by simpa [rkStagesAux] using heq
    exact hacc
  | cons rc rest ih =>
    obtain ⟨row, c⟩ := rc
    intro acc ks hacc heq
    have harg : (vadd v (vsmul h (wcomb v.length row acc))).length =
        (ni + nb) + (ni + nb) := by
      have hw : (wcomb v.length row acc).length = v.length :=
        wcomb_length _ _ _ fun k hk => by rw [hacc k hk, hv]
      rw [vadd_length, vsmul_length, hw, min_self, hv]
    obtain ⟨k0, hk0, hk0len⟩ := fFlat_some ctx junk (t + c * h) _ harg
    have hstep : rkStagesAux ctx junk t h v ((row, c) :: rest) acc =
        rkStagesAux ctx junk t h v rest (acc ++ [k0]) := by
      simp only [rkStagesAux, hk0]
    rw [hstep] at heq
    refine ih (acc ++ [k0]) ks (fun k hk => ?_) heq
    rcases List.mem_append.mp hk with h' | h'
    · exact hacc k h'
    · have hk' : k = k0 := by simpa using h'
      rw [hk']
      exact hk0len

theorem rkStep_length (ctx : Ctx ni nb) (junk : Fin (ni + nb + nb) → ℚ)
    (stages : List (List ℚ × ℚ)) (b : List ℚ) (t h : ℚ) (v w : List ℚ)
    (hv : v.length = (ni + nb) + (ni + nb))
    (hw : rkStep ctx junk stages b t h v = some w) :
    w.length = (ni + nb) + (ni + nb) := by
  rcases hks : rkStagesAux ctx junk t h v stages [] with _ | ks
  · rw [show rkStep ctx junk stages b t h v =
        match rkStagesAux ctx junk t h v stages [] with
        | none => none
        | some ks => some (vadd v (vsmul h (wcomb v.length b ks))) from rfl,
      hks] at hw
    cases hw
  · rw [show rkStep ctx junk stages b t h v =
        match rkStagesAux ctx junk t h v stages [] with
        | none => none
        | some ks => some (vadd v (vsmul h (wcomb v.length b ks))) from rfl,
      hks] at hw
    have hlen : ∀ k ∈ ks, (k : List ℚ).length = (ni + nb) + (ni + nb) :=
      rkStagesAux_lengths ctx junk t h v hv stages [] ks (by simp) hks
    have hwc : (wcomb v.length b ks).length = v.length :=
      wcomb_length _ _ _ fun k hk => by rw [hlen k hk, hv]
    obtain rfl : vadd v (vsmul h (wcomb v.length b ks)) = w := by
      simpa using hw
    rw [vadd_length, vsmul_length, hwc, min_self, hv]

theorem integrateSteps_length (ctx : Ctx ni nb) (junk : Fin (ni + nb + nb) → ℚ)
    (stages : List (List ℚ × ℚ)) (b : List ℚ) (plan : List (ℚ × ℚ)) :
    ∀ v w : List ℚ, v.length = (ni + nb) + (ni + nb) →
      integrateSteps ctx junk stages b plan v = some w →
      w.length = (ni + nb) + (ni + nb) := by
  induction plan with
  | nil =>
    intro v w hv heq
    obtain rfl : v = w := by simpa [integrateSteps] using heq
    exact hv
  | cons th rest ih =>
    obtain ⟨t, h⟩ := th
    intro v w hv heq
    rcases hstep : rkStep ctx junk stages b t h v with _ | v'
    · simp only [integrateSteps, hstep] at heq
      cases heq
    · simp only [integrateSteps, hstep] at heq
      exact ih v' w (rkStep_length ctx junk stages b t h v v' hv hstep) heq

theorem checkpointLoop_lengths (ctx : Ctx ni nb) (junk : Fin (ni + nb + nb) → ℚ)
    (stages : List (List ℚ × ℚ)) (b : List ℚ) (plan : List (List (ℚ × ℚ))) :
    ∀ (v : List ℚ) (ws : List (List ℚ)), v.length = (ni + nb) + (ni + nb) →
      checkpointLoop ctx junk stages b plan v = some ws →
      ∀ w ∈ ws, (w : List ℚ).length = (ni + nb) + (ni + nb) := by
  induction plan with
  | nil =>
    intro v ws hv heq
    obtain rfl : ([] : List (List ℚ)) = ws := by simpa [checkpointLoop] using heq
    intro w hw
    cases hw
  | cons steps rest ih =>
    intro v ws hv heq
    rcases hint : integrateSteps ctx junk stages b steps v with _ | w1
    · simp only [checkpointLoop, hint] at heq
      cases heq
    · simp only [checkpointLoop, hint] at heq
      rcases hrest : checkpointLoop ctx junk stages b rest w1 with _ | ws'
      · rw [hrest] at heq
        cases heq
      · rw [hrest] at heq
        obtain rfl : w1 :: ws' = ws := by simpa using heq
        have hw1 : w1.length = (ni + nb) + (ni + nb) :=
          integrateSteps_length ctx junk stages b steps v w1 hv hint
        intro w hw
        rcases List.mem_cons.mp hw with rfl | hw'
        · exact hw1
        · exact ih w1 ws' hw1 hrest w hw'

/-! ## Claim theorems -/

/-- C1: for every valid state vector `v` (typed to have the even length
`2*(interior count + boundary count)`), the evaluator `f` splits `v` into a
displacement half `fstHalf v` and a velocity half `sndHalf v`, builds a full
per-node displacement array `u` whose interior and boundary entries come
directly from the displacement half and whose ghost entries are the (unique)
solution of the boundary system
`dD[:,ghost] @ u[ghost] = u_bnd - dD[:,interior+boundary] @ v[0]`, and
returns the concatenation `[velocity half, D @ u]`. -/
theorem f_splits_solves_concats (ni nb : ℕ) (ctx : Ctx ni nb)
    (hdet : (dDg ctx).det ≠ 0) (junk : Fin (ni + nb + nb) → ℚ) (t : ℚ)
    (v : Fin ((ni + nb) + (ni + nb)) → ℚ) :
    ∃ u : Fin (ni + nb + nb) → ℚ,
      (∀ i : Fin (ni + nb), u (Fin.castAdd nb (ibMap ctx i)) = fstHalf v i) ∧
      ((dDg ctx).mulVec fun k => u (Fin.natAdd (ni + nb) k)) =
        ctx.u_bnd - (dDib ctx).mulVec (fstHalf v) ∧
      (∀ g' : Fin nb → ℚ,
          (dDg ctx).mulVec g' = ctx.u_bnd - (dDib ctx).mulVec (fstHalf v) →
          g' = fun k => u (Fin.natAdd (ni + nb) k)) ∧
      f ctx junk t v = Fin.append (sndHalf v) (ctx.D.mulVec u) := by
  have hghost : (fun k => buildU ctx junk (fstHalf v) (Fin.natAdd (ni + nb) k))
      = ghostSolve ctx (fstHalf v) :=
    funext (buildU_apply_ghost ctx junk (fstHalf v))
  refine ⟨buildU ctx junk (fstHalf v), buildU_apply_ib ctx junk (fstHalf v),
    ?_, ?_, rfl⟩
  · rw [hghost]
    exact solveSq_sound hdet _
  · intro g' hg'
    rw [hghost]
    exact (solveSq_unique hdet hg').symm

/-- C1 instantiated at a concrete context and state vector, discharging the
nonsingularity hypothesis by evaluation. -/
theorem f_splits_solves_concats_witness :
    (dDg wCtx).det ≠ 0 ∧
    ∃ u : Fin (0 + 1 + 1) → ℚ,
      (∀ i : Fin (0 + 1), u (Fin.castAdd 1 (ibMap wCtx i)) = fstHalf wV i) ∧
      ((dDg wCtx).mulVec fun k => u (Fin.natAdd (0 + 1) k)) =
        wCtx.u_bnd - (dDib wCtx).mulVec (fstHalf wV) ∧
      (∀ g' : Fin 1 → ℚ,
          (dDg wCtx).mulVec g' = wCtx.u_bnd - (dDib wCtx).mulVec (fstHalf wV) →
          g' = fun k => u (Fin.natAdd (0 + 1) k)) ∧
      f wCtx wJunk 0 wV = Fin.append (sndHalf wV) (wCtx.D.mulVec u) := by
  have hdet : (dDg wCtx).det ≠ 0 := by
    rw [Matrix.det_fin_one]
    norm_num [dDg, wCtx, Fin.natAdd]
  exact ⟨hdet, f_splits_solves_concats 0 1 wCtx hdet wJunk 0 wV⟩

/-- C3: the evaluator is linear in the state vector — for all scalars `a, b`
and equal-length state vectors `v₁, v₂`,
`f(t, a*v₁ + b*v₂) = a*f(t,v₁) + b*f(t,v₂)` exactly, in exact rational
arithmetic, under a nonsingular ghost matrix and the script's all-zero
boundary target. -/
theorem f_linear_in_state (ni nb : ℕ) (ctx : Ctx ni nb) (hbnd : ctx.u_bnd = 0)
    (hdet : (dDg ctx).det ≠ 0) (junk : Fin (ni + nb + nb) → ℚ) (t a b : ℚ)
    (v₁ v₂ : Fin ((ni + nb) + (ni + nb)) → ℚ) :
    f ctx junk t (a • v₁ + b • v₂) = a • f ctx junk t v₁ + b • f ctx junk t v₂ := by
  have hfst : fstHalf (a • v₁ + b • v₂) = a • fstHalf v₁ + b • fstHalf v₂ := rfl
  unfold f
  rw [hfst, buildU_add_smul ctx hbnd junk a b (fstHalf v₁) (fstHalf v₂)]
  funext j
  refine Fin.addCases (fun i => ?_) (fun k => ?_) j
  · simp only [Fin.append_left, Pi.add_apply, Pi.smul_apply, sndHalf,
      smul_eq_mul]
  · simp only [Fin.append_right, Matrix.mulVec_add, Matrix.mulVec_smul,
      Pi.add_apply, Pi.smul_apply, smul_eq_mul]

/-- C3 instantiated at a concrete context, scalars and state vectors. -/
theorem f_linear_in_state_witness :
    wCtx.u_bnd = 0 ∧ (dDg wCtx).det ≠ 0 ∧
    f wCtx wJunk 0 ((2 : ℚ) • wV + (3 : ℚ) • wV2) =
      (2 : ℚ) • f wCtx wJunk 0 wV + (3 : ℚ) • f wCtx wJunk 0 wV2 := by
  have hbnd : wCtx.u_bnd = 0 := rfl
  have hdet : (dDg wCtx).det ≠ 0 := by
    rw [Matrix.det_fin_one]
    norm_num [dDg, wCtx, Fin.natAdd]
  exact ⟨hbnd, hdet, f_linear_in_state 0 1 wCtx hbnd hdet wJunk 0 2 3 wV wV2⟩

/-- C4: the derivative returned by the evaluator has exactly the length of
the (valid) input state vector; the initial state
`np.hstack([u_init, dudt_init])` has length `2*(interior+boundary count)`;
and along the checkpoint loop driven by the (spec-modelled) explicit
Runge–Kutta integrator, every checkpoint state again has length
`2*(interior+boundary count)`. -/
theorem state_length_invariant (ni nb : ℕ) (ctx : Ctx ni nb)
    (junk : Fin (ni + nb + nb) → ℚ) :
    (∀ (t : ℚ) (v : List ℚ), v.length = 2 * (ni + nb) →
        ∃ w, fFlat ctx junk t v = some w ∧ w.length = v.length) ∧
    (∀ pos : Fin (ni + nb) → ℚ × ℚ, (vInit pos).length = 2 * (ni + nb)) ∧
    ∀ (stages : List (List ℚ × ℚ)) (b : List ℚ) (plan : List (List (ℚ × ℚ)))
      (v : List ℚ) (ws : List (List ℚ)), v.length = 2 * (ni + nb) →
      checkpointLoop ctx junk stages b plan v = some ws →
      ∀ w ∈ ws, (w : List ℚ).length = 2 * (ni + nb) := by
  have h2 : 2 * (ni + nb) = (ni + nb) + (ni + nb) := two_mul _
  refine ⟨fun t v hv => ?_, fun pos => ?_, fun stages b plan v ws hv heq w hw => ?_⟩
  · obtain ⟨w, hw, hwl⟩ := fFlat_some ctx junk t v (hv.trans h2)
    exact ⟨w, hw, by rw [hwl, hv, h2]⟩
  · simp [vInit, zeroVec, h2]
  · rw [h2]
    exact checkpointLoop_lengths ctx junk stages b plan v ws (hv.trans h2) heq w hw

/-- C4 instantiated: a concrete valid state vector is mapped to a derivative
vector of the same length. -/
theorem state_length_invariant_witness :
    ([(1 : ℚ), 2].length = 2 * (0 + 1)) ∧
    ∃ w, fFlat wCtx wJunk 0 [(1 : ℚ), 2] = some w ∧
      w.length = [(1 : ℚ), 2].length :=
  ⟨rfl, (state_length_invariant 0 1 wCtx wJunk).1 0 [1, 2] rfl⟩

/-- C5: any full displacement field satisfying the boundary condition exactly
is reproduced by the ghost solve — solving the ghost system from its
interior+boundary part recovers exactly its ghost part, the rebuilt array
equals the field, and the boundary residual `dD @ u - u_bnd` of the rebuilt
array is zero (exactly, in exact arithmetic, for nonsingular `dD[:,ghost]`). -/
theorem ghost_boundary_consistency (ni nb : ℕ) (ctx : Ctx ni nb)
    (hdet : (dDg ctx).det ≠ 0) (junk : Fin (ni + nb + nb) → ℚ)
    (ufull : Fin (ni + nb + nb) → ℚ) (hu : ctx.dD.mulVec ufull = ctx.u_bnd) :
    ghostSolve ctx (fun i => ufull (Fin.castAdd nb (ibMap ctx i))) =
      (fun k => ufull (Fin.natAdd (ni + nb) k)) ∧
    buildU ctx junk (fun i => ufull (Fin.castAdd nb (ibMap ctx i))) = ufull ∧
    ctx.dD.mulVec (buildU ctx junk fun i => ufull (Fin.castAdd nb (ibMap ctx i))) -
      ctx.u_bnd = 0 := by
  have hsys : (dDg ctx).mulVec (fun k => ufull (Fin.natAdd (ni + nb) k)) =
      ctx.u_bnd - (dDib ctx).mulVec fun i => ufull (Fin.castAdd nb (ibMap ctx i)) := by
    rw [← hu, dD_mulVec_decomp ctx ufull, add_sub_cancel_left]
  have hg : ghostSolve ctx (fun i => ufull (Fin.castAdd nb (ibMap ctx i))) =
      fun k => ufull (Fin.natAdd (ni + nb) k) := by
    unfold ghostSolve
    exact solveSq_unique hdet hsys
  have hbuild : buildU ctx junk (fun i => ufull (Fin.castAdd nb (ibMap ctx i)))
      = ufull := by
    funext j
    refine Fin.addCases (fun j' => ?_) (fun k => ?_) j
    · obtain ⟨i, hi⟩ := (ibMap_bijective ctx).2 j'
      rw [← hi, buildU_apply_ib]
    · rw [buildU_apply_ghost, hg]
  exact ⟨hg, hbuild, by rw [hbuild, hu, sub_self]⟩

/-- C5 instantiated at a concrete context and a concrete field satisfying the
boundary condition, both hypotheses discharged by evaluation. -/
theorem ghost_boundary_consistency_witness :
    (dDg wCtx).det ≠ 0 ∧ wCtx.dD.mulVec wUfull = wCtx.u_bnd ∧
    (ghostSolve wCtx (fun i => wUfull (Fin.castAdd 1 (ibMap wCtx i))) =
      (fun k => wUfull (Fin.natAdd (0 + 1) k)) ∧
    buildU wCtx wJunk (fun i => wUfull (Fin.castAdd 1 (ibMap wCtx i))) = wUfull ∧
    wCtx.dD.mulVec (buildU wCtx wJunk fun i => wUfull (Fin.castAdd 1 (ibMap wCtx i))) -
      wCtx.u_bnd = 0) := by
  have hdet : (dDg wCtx).det ≠ 0 := by
    rw [Matrix.det_fin_one]
    norm_num [dDg, wCtx, Fin.natAdd]
  have hu : wCtx.dD.mulVec wUfull = wCtx.u_bnd := by
    funext r
    fin_cases r
    simp [wCtx, wUfull, Matrix.mulVec, Matrix.dotProduct, Fin.sum_univ_two]
  exact ⟨hdet, hu, ghost_boundary_consistency 0 1 wCtx hdet wJunk wUfull hu⟩

/-- C6: the ghost system is square by construction — the ghost index list
`range(N, N+len(boundary))` has exactly one entry per boundary node, and the
restriction of a `dD` with one row per boundary node to the ghost columns has
equally many rows and columns. -/
theorem ghost_system_square (ni nb : ℕ) (dDL : List (List ℚ))
    (hrows : dDL.length = nb) :
    (ghostIdx (ni + nb) nb).length = nb ∧
    (∀ j ∈ ghostIdx (ni + nb) nb, ni + nb ≤ j ∧ j < ni + nb + nb) ∧
    (selectCols dDL (ghostIdx (ni + nb) nb)).length = nb ∧
    ∀ row ∈ selectCols dDL (ghostIdx (ni + nb) nb), (row : List ℚ).length = nb := by
  refine ⟨List.length_range' _ _ _, fun j hj => ?_, ?_, fun row hrow => ?_⟩
  · have := List.mem_range'_1.mp hj
    omega
  · rw [selectCols, List.length_map, hrows]
  · obtain ⟨r, _, rfl⟩ := List.mem_map.mp hrow
    rw [List.length_map]
    exact List.length_range' _ _ _

/-- C6 instantiated at a one-boundary-node operator. -/
theorem ghost_system_square_witness :
    ([[(1 : ℚ), 1]].length = 1) ∧
    ((ghostIdx (0 + 1) 1).length = 1 ∧
     (∀ j ∈ ghostIdx (0 + 1) 1, 0 + 1 ≤ j ∧ j < 0 + 1 + 1) ∧
     (selectCols [[(1 : ℚ), 1]] (ghostIdx (0 + 1) 1)).length = 1 ∧
     ∀ row ∈ selectCols [[(1 : ℚ), 1]] (ghostIdx (0 + 1) 1),
       (row : List ℚ).length = 1) :=
  ⟨rfl, ghost_system_square 0 1 [[1, 1]] rfl⟩

/-- C7: the all-zero state vector is a fixed point of the evaluator — with
the script's homogeneous boundary target and a nonsingular ghost matrix,
`f(t, 0) = 0` for every time `t`. -/
theorem f_zero_fixed (ni nb : ℕ) (ctx : Ctx ni nb) (hbnd : ctx.u_bnd = 0)
    (hdet : (dDg ctx).det ≠ 0) (junk : Fin (ni + nb + nb) → ℚ) (t : ℚ) :
    f ctx junk t (0 : Fin ((ni + nb) + (ni + nb)) → ℚ) = 0 := by
  have hU : buildU ctx junk (0 : Fin (ni + nb) → ℚ) = 0 := by
    funext j
    refine Fin.addCases (fun j' => ?_) (fun k => ?_) j
    · obtain ⟨i, hi⟩ := (ibMap_bijective ctx).2 j'
      rw [← hi, buildU_apply_ib]
      rfl
    · rw [buildU_apply_ghost]
      unfold ghostSolve
      rw [hbnd, Matrix.mulVec_zero, sub_zero, solveSq_zero]
      rfl
  show Fin.append (0 : Fin (ni + nb) → ℚ)
      (ctx.D.mulVec (buildU ctx junk (0 : Fin (ni + nb) → ℚ))) = 0
  rw [hU, Matrix.mulVec_zero]
  funext j
  refine Fin.addCases (fun i => ?_) (fun k => ?_) j
  · rw [Fin.append_left]
    rfl
  · rw [Fin.append_right]
    rfl

/-- C7 instantiated at a concrete context. -/
theorem f_zero_fixed_witness :
    wCtx.u_bnd = 0 ∧ (dDg wCtx).det ≠ 0 ∧
    f wCtx wJunk 0 (0 : Fin ((0 + 1) + (0 + 1)) → ℚ) = 0 := by
  have hbnd : wCtx.u_bnd = 0 := rfl
  have hdet : (dDg wCtx).det ≠ 0 := by
    rw [Matrix.det_fin_one]
    norm_num [dDg, wCtx, Fin.natAdd]
  exact ⟨hbnd, hdet, f_zero_fixed 0 1 wCtx hbnd hdet wJunk 0⟩

/-- C8: a call to the evaluator leaves every module-level binding unchanged —
the node array, the index data, the operators `D` and `dD`, the boundary
target `u_bnd` and the input state vector are identical before and after the
call, which only produces the derivative vector. -/
theorem f_call_frame (ni nb : ℕ) (g : Globals ni nb)
    (junk : Fin (ni + nb + nb) → ℚ) (t : ℚ) :
    (fCall g junk t).1 = g ∧
    (fCall g junk t).1.nodes = g.nodes ∧
    (fCall g junk t).1.ctx.int = g.ctx.int ∧
    (fCall g junk t).1.ctx.bnd = g.ctx.bnd ∧
    (fCall g junk t).1.ctx.D = g.ctx.D ∧
    (fCall g junk t).1.ctx.dD = g.ctx.dD ∧
    (fCall g junk t).1.ctx.u_bnd = g.ctx.u_bnd ∧
    (fCall g junk t).1.v = g.v ∧
    (fCall g junk t).2 = f g.ctx junk t g.v :=
  ⟨rfl, rfl, rfl, rfl, rfl, rfl, rfl, rfl, rfl⟩

/-- C9: ghost-node construction — exactly one ghost node per boundary node is
appended after the original `N` nodes (the ghost indices being
`N .. N+len(boundary)-1`), the original nodes are untouched, and each ghost
node sits at its boundary node's position plus `0.5*dx` times that node's
outward normal, where `dx` (characterised by `0 ≤ dx` and
`dx² = minSpacingSq nodes`) is the minimum over all original nodes of the
distance to their nearest neighbour. -/
theorem ghost_nodes_appended (n nb : ℕ) (nodes : Fin n → ℚ × ℚ)
    (bnd : Fin nb → Fin n) (normals : Fin nb → ℚ × ℚ) (dx : ℚ)
    (h0 : 0 ≤ dx) (h1 : dx ^ 2 = minSpacingSq nodes) :
    (∀ j : Fin n, extendNodes nodes bnd normals dx (Fin.castAdd nb j) = nodes j) ∧
    (∀ k : Fin nb, extendNodes nodes bnd normals dx (Fin.natAdd n k) =
        ghostPos (nodes (bnd k)) (normals k) dx) ∧
    (∀ k : Fin nb,
        4 * sqDist (extendNodes nodes bnd normals dx (Fin.natAdd n k))
            (nodes (bnd k)) =
          minSpacingSq nodes * ((normals k).1 ^ 2 + (normals k).2 ^ 2)) ∧
    (ghostIdx n nb).length = nb ∧
    ∀ j ∈ ghostIdx n nb, n ≤ j ∧ j < n + nb := by
  refine ⟨fun j => Fin.append_left _ _ j, fun k => Fin.append_right _ _ k,
    fun k => ?_, List.length_range' _ _ _, fun j hj => ?_⟩
  · rw [show extendNodes nodes bnd normals dx (Fin.natAdd n k) =
        ghostPos (nodes (bnd k)) (normals k) dx from Fin.append_right _ _ k,
      ← h1]
    simp only [ghostPos, sqDist]
    ring
  · have := List.mem_range'_1.mp hj
    omega

/-- C9 instantiated at a concrete two-node set whose minimum spacing is `1`,
with `dx = 1`; both characterising hypotheses are discharged by evaluation. -/
theorem ghost_nodes_appended_witness :
    ((0 : ℚ) ≤ 1) ∧ ((1 : ℚ) ^ 2 = minSpacingSq wNodes) ∧
    ((∀ j : Fin 2, extendNodes wNodes wBnd wNormals 1 (Fin.castAdd 1 j) = wNodes j) ∧
     (∀ k : Fin 1, extendNodes wNodes wBnd wNormals 1 (Fin.natAdd 2 k) =
         ghostPos (wNodes (wBnd k)) (wNormals k) 1) ∧
     (∀ k : Fin 1,
         4 * sqDist (extendNodes wNodes wBnd wNormals 1 (Fin.natAdd 2 k))
             (wNodes (wBnd k)) =
           minSpacingSq wNodes * ((wNormals k).1 ^ 2 + (wNormals k).2 ^ 2)) ∧
     (ghostIdx 2 1).length = 1 ∧
     ∀ j ∈ ghostIdx 2 1, 2 ≤ j ∧ j < 2 + 1) := by
  have huniv : (Finset.univ : Finset (Fin 2)) = {0, 1} := by decide
  have he0 : ({0, 1} : Finset (Fin 2)).erase 0 = {1} := by decide
  have he1 : ({0, 1} : Finset (Fin 2)).erase 1 = {0} := by decide
  have hn0 : nearestNbrSq wNodes 0 = 1 := by
    rw [nearestNbrSq, huniv, he0, Finset.image_singleton, Finset.min_singleton]
    show sqDist (wNodes 0) (wNodes 1) = 1
    norm_num [sqDist, wNodes]
  have hn1 : nearestNbrSq wNodes 1 = 1 := by
    rw [nearestNbrSq, huniv, he1, Finset.image_singleton, Finset.min_singleton]
    show sqDist (wNodes 1) (wNodes 0) = 1
    norm_num [sqDist, wNodes]
  have h1 : (1 : ℚ) ^ 2 = minSpacingSq wNodes := by
    rw [minSpacingSq, huniv,
      show Finset.image (fun i => nearestNbrSq wNodes i) {0, 1} = {1} by
        rw [Finset.image_insert, Finset.image_singleton, hn0, hn1]
        rfl,
      Finset.min_singleton]
    show (1 : ℚ) ^ 2 = (1 : ℚ)
    norm_num
  exact ⟨by norm_num, h1,
    ghost_nodes_appended 2 1 wNodes wBnd wNormals 1 (by norm_num) h1⟩

/-- C10: the evaluator's output depends neither on the time argument nor on
the unspecified `np.empty` contents — `f(t₁, v) = f(t₂, v)` for all times,
so in particular two calls with equal state arguments return equal results. -/
theorem f_time_and_junk_independent (ni nb : ℕ) (ctx : Ctx ni nb)
    (junk junk' : Fin (ni + nb + nb) → ℚ) (t t' : ℚ)
    (v : Fin ((ni + nb) + (ni + nb)) → ℚ) :
    f ctx junk t v = f ctx junk' t' v := by
  unfold f
  rw [buildU_junk_indep ctx junk junk' (fstHalf v)]

end Wave

